import Mathlib

/-!
# Verification of the factoriolab URL codec

Shallow embedding of the `ZipService` (subset range codec, diff codec,
primitive field codec) and the relevant parts of `RouterService`
(container selection, objective records, decode control flow).

TypeScript strings are modelled as `List Char`; TypeScript
`T | null | undefined` is modelled by the three-constructor `Nullable`
type below, so that `===` (which distinguishes `null` from `undefined`)
and `== null` (which merges them) can both be embedded faithfully.
-/

abbrev Str : Type := List Char

/-- Modelled from the spec: the reserved field separator character.
The source file `zip.service.ts` confirms it in `zipFields`, whose
trailing-separator strip is the regex replace of trailing asterisks. -/
def ZFIELDSEP : Char := '*'

/-- Modelled from the spec: the reserved array separator character
(the constant itself lives in `~/models`, outside the given sources). -/
def ZARRAYSEP : Char := '~'

/-- Modelled from the spec: the explicit-null sentinel token. -/
def ZNULL : Str := ['?']

/-- Modelled from the spec: the explicit-empty sentinel token. -/
def ZEMPTY : Str := ['=']

/-- Modelled from the spec: the boolean true marker. -/
def ZTRUE : Str := ['1']

/-- Modelled from the spec: the boolean false marker. -/
def ZFALSE : Str := ['0']

/-- Modelled from the spec: the digit alphabet of the id compaction
scheme of `CompressionService` (not among the given sources).  Per the
spec it must exclude the two separator characters and the sentinel
tokens; bijectivity is the only property the codec relies on. -/
def alphabet : List Char :=
  ['A', 'B', 'C', 'D', 'E', 'F', 'G', 'H', 'I', 'J', 'K', 'L', 'M',
   'N', 'O', 'P', 'Q', 'R', 'S', 'T', 'U', 'V', 'W', 'X', 'Y', 'Z']

def digitChar (d : ℕ) : Char := alphabet.getD d 'A'

def charDigit (c : Char) : ℕ := alphabet.indexOf c

/-- Little-endian base-26 digits of `n`, with explicit fuel so that the
definition is structural and kernel-reducible.  `natDigits26 fuel n` is
the digit list of `n` whenever `n ≤ fuel`. -/
def natDigits26 : ℕ → ℕ → List ℕ
  | 0, n => [n % 26]
  | fuel + 1, n => if n < 26 then [n] else n % 26 :: natDigits26 fuel (n / 26)

/-- Modelled from the spec: `compact(n)`, the bijective integer to
short-string mapping of the id compaction component. -/
def nToId (n : ℕ) : Str := ((natDigits26 n n).map digitChar).reverse

/-- Modelled from the spec: `expand(s)`, the inverse of `nToId`. -/
def idToN (s : Str) : ℕ := s.foldl (fun a c => a * 26 + charDigit c) 0

/-- Value of a little-endian digit list. -/
def valLE : List ℕ → ℕ
  | [] => 0
  | d :: ds => d + 26 * valLE ds

theorem charDigit_digitChar : ∀ d, d < 26 → charDigit (digitChar d) = d := by
  decide

theorem digitChar_mem_alphabet : ∀ d, d < 26 → digitChar d ∈ alphabet := by
  decide

theorem natDigits26_spec : ∀ fuel n, n ≤ fuel →
    valLE (natDigits26 fuel n) = n ∧ ∀ d ∈ natDigits26 fuel n, d < 26 := by
  intro fuel
  induction fuel with
  | zero =>
    intro n hn
    interval_cases n
    simp [natDigits26, valLE]
  | succ f ih =>
    intro n hn
    by_cases h : n < 26
    · simp only [natDigits26, if_pos h]
      constructor
      · simp [valLE]
      · intro d hd
        simp only [List.mem_singleton] at hd
        omega
    · simp only [natDigits26, if_neg h]
      have hdiv : n / 26 ≤ f := by omega
      obtain ⟨h1, h2⟩ := ih (n / 26) hdiv
      constructor
      · simp only [valLE, h1]
        omega
      · intro d hd
        rcases List.mem_cons.mp hd with rfl | hd
        · omega
        · exact h2 d hd

theorem idToN_append_singleton (s : Str) (c : Char) :
    idToN (s ++ [c]) = idToN s * 26 + charDigit c := by
  simp [idToN, List.foldl_append]

theorem idToN_reverse_map (ds : List ℕ) (h : ∀ d ∈ ds, d < 26) :
    idToN ((ds.map digitChar).reverse) = valLE ds := by
  induction ds with
  | nil => simp [idToN, valLE]
  | cons d ds ih =>
    simp only [List.map_cons, List.reverse_cons]
    rw [idToN_append_singleton, ih (fun x hx => h x (List.mem_cons_of_mem d hx)),
      charDigit_digitChar d (h d (List.mem_cons_self d ds))]
    simp [valLE]
    ring

/-- The compaction round-trip of the spec: `expand (compact n) = n`. -/
theorem idToN_nToId (n : ℕ) : idToN (nToId n) = n := by
  have := natDigits26_spec n n le_rfl
  rw [nToId, idToN_reverse_map _ this.2, this.1]

theorem natDigits26_ne_nil (fuel n : ℕ) : natDigits26 fuel n ≠ [] := by
  cases fuel with
  | zero => simp [natDigits26]
  | succ f =>
    simp only [natDigits26]
    split <;> simp

theorem nToId_ne_nil (n : ℕ) : nToId n ≠ [] := by
  simp only [nToId, ne_eq, List.reverse_eq_nil_iff, List.map_eq_nil_iff]
  exact natDigits26_ne_nil n n

theorem nToId_mem_alphabet (n : ℕ) : ∀ c ∈ nToId n, c ∈ alphabet := by
  intro c hc
  simp only [nToId, List.mem_reverse, List.mem_map] at hc
  obtain ⟨d, hd, rfl⟩ := hc
  exact digitChar_mem_alphabet d ((natDigits26_spec n n le_rfl).2 d hd)

/-- JS `s.split(sep)` for a single-character separator: always returns
one more chunk than there are separator occurrences; the chunks carry
no separator. -/
def splitOnChar (sep : Char) : Str → List Str
  | [] => [[]]
  | c :: cs =>
    match splitOnChar sep cs with
    | [] => [[]]
    | h :: t => if c = sep then [] :: h :: t else (c :: h) :: t

/-- JS `parts.join(sep)` for a single-character separator. -/
def joinSep (sep : Char) : List Str → Str
  | [] => []
  | [x] => x
  | x :: y :: t => x ++ sep :: joinSep sep (y :: t)

theorem splitOnChar_ne_nil (sep : Char) (s : Str) : splitOnChar sep s ≠ [] := by
  cases s with
  | nil => simp [splitOnChar]
  | cons c cs =>
    simp only [splitOnChar]
    rcases h : splitOnChar sep cs with _ | ⟨h0, t⟩
    · simp [h]
    · show (if c = sep then [] :: h0 :: t else (c :: h0) :: t) ≠ []
      split <;> simp

theorem splitOnChar_sepFree (sep : Char) (s : Str) (h : sep ∉ s) :
    splitOnChar sep s = [s] := by
  induction s with
  | nil => rfl
  | cons c cs ih =>
    have hc : c ≠ sep := fun hcs => h (hcs ▸ List.mem_cons_self c cs)
    have hcs : sep ∉ cs := fun hm => h (List.mem_cons_of_mem c hm)
    simp only [splitOnChar, ih hcs, if_neg hc]

theorem splitOnChar_append_cons (sep : Char) (x t : Str) (h : sep ∉ x) :
    splitOnChar sep (x ++ sep :: t) = x :: splitOnChar sep t := by
  induction x with
  | nil =>
    simp only [List.nil_append, splitOnChar]
    rcases ht : splitOnChar sep t with _ | ⟨h0, t0⟩
    · exact absurd ht (splitOnChar_ne_nil sep t)
    · simp
  | cons c cs ih =>
    have hc : c ≠ sep := fun hcs => h (hcs ▸ List.mem_cons_self c cs)
    have hcs : sep ∉ cs := fun hm => h (List.mem_cons_of_mem c hm)
    simp only [List.cons_append, splitOnChar, List.append_eq, ih hcs, if_neg hc]

/-- Split is a left inverse of join for nonempty lists of
separator-free chunks. -/
theorem splitOnChar_joinSep (sep : Char) (l : List Str) (hne : l ≠ [])
    (hfree : ∀ x ∈ l, sep ∉ x) :
    splitOnChar sep (joinSep sep l) = l := by
  induction l with
  | nil => exact absurd rfl hne
  | cons x t ih =>
    cases t with
    | nil =>
      simp only [joinSep]
      exact splitOnChar_sepFree sep x (hfree x (List.mem_cons_self x []))
    | cons y t' =>
      simp only [joinSep]
      rw [splitOnChar_append_cons sep x _ (hfree x (List.mem_cons_self x _)),
        ih (by simp) (fun z hz => hfree z (List.mem_cons_of_mem x hz))]

/-- TypeScript `T | null | undefined`, keeping `null` and `undefined`
distinct so that `===` can be embedded exactly. -/
inductive Nullable (α : Type) where
  | undefined : Nullable α
  | null : Nullable α
  | val (a : α) : Nullable α
deriving DecidableEq

/-- TypeScript `x == null` (loose equality merges null and undefined). -/
def Nullable.isNull {α : Type} : Nullable α → Bool
  | .val _ => false
  | _ => true

/-- TypeScript `x === y` on nullable scalars: `null` and `undefined`
differ; present values compare by value. -/
def Nullable.strictEq {α : Type} [DecidableEq α] : Nullable α → Nullable α → Bool
  | .undefined, .undefined => true
  | .null, .null => true
  | .val a, .val b => a = b
  | _, _ => false

def decAlphabet : List Char :=
  ['0', '1', '2', '3', '4', '5', '6', '7', '8', '9']

def decChar (d : ℕ) : Char := decAlphabet.getD d '0'

/-- Little-endian decimal digits with explicit fuel (kernel-reducible). -/
def natDigits10 : ℕ → ℕ → List ℕ
  | 0, n => [n % 10]
  | fuel + 1, n => if n < 10 then [n] else n % 10 :: natDigits10 fuel (n / 10)

def natToStr (n : ℕ) : Str := ((natDigits10 n n).map decChar).reverse

def intToStr (i : ℤ) : Str :=
  if i < 0 then '-' :: natToStr i.natAbs else natToStr i.natAbs

/-- Decimal text of a rational: exact fractional text per the spec
(`Rational.toString` itself lives outside the given sources). -/
def ratToStr (q : ℚ) : Str :=
  if q.den = 1 then intToStr q.num
  else intToStr q.num ++ '/' :: natToStr q.den

def strToNat (s : Str) : ℕ :=
  s.foldl (fun a c => a * 10 + decAlphabet.indexOf c) 0

/-- JS `Number(s)` restricted to plain decimal text; unparseable inputs
(which would be `NaN`, never produced by the encoder) are out of scope
and read as zero. -/
def numFromStr (s : Str) : ℚ :=
  match s with
  | '-' :: t => -(posNumFromStr t)
  | _ => posNumFromStr s
where posNumFromStr (s : Str) : ℚ :=
  match splitOnChar '.' s with
  | [i, f] => (strToNat i : ℚ) + (strToNat f : ℚ) / (10 ^ f.length : ℚ)
  | [i] => (strToNat i : ℚ)
  | _ => 0

/-- The `rational(string)` factory: fraction text `a/b` or decimal text
(the factory itself lives outside the given sources). -/
def ratFromStr (s : Str) : ℚ :=
  match splitOnChar '/' s with
  | [n, d] => numFromStr n / (strToNat d : ℚ)
  | _ => numFromStr s

/-- `ZipService.zipFields`: join on the field separator, then strip the
trailing run of field separators (the `replace` of trailing asterisks). -/
def zipFields (fields : List Str) : Str :=
  ((joinSep ZFIELDSEP fields).reverse.dropWhile (fun c => c = ZFIELDSEP)).reverse

/-- `ZipService.zipString`. -/
def zipString (value : Nullable Str) : Str :=
  match value with
  | .val v => v
  | _ => []

/-- `ZipService.zipNumber` (numbers and rationals both print via
`toString`; the model uses rational values throughout). -/
def zipNumber (value : Nullable ℚ) : Str :=
  match value with
  | .val v => ratToStr v
  | _ => []

/-- `ZipService.zipArray`. -/
def zipArray (value : Nullable (List Str)) : Str :=
  match value with
  | .val v => if v.length = 0 then ZEMPTY else joinSep ZARRAYSEP v
  | _ => []

/-- `ZipService.zipNString`.  JS `indexOf` yields -1 for an id missing
from the dictionary; the model uses the Lean convention (list length)
for that degenerate index — no claim exercises a missing id. -/
def zipNString (value : Nullable Str) (hash : List Str) : Str :=
  match value with
  | .val v => nToId (hash.indexOf v)
  | _ => []

/-- A flushed range of `zipDiffSubset`: start position and optional end
position (the code keeps them as compacted strings; positions are kept
here and compacted at emission, which produces the same text). -/
abbrev ZRange : Type := ℕ × Option ℕ

/-- The text of one flushed range: `start` alone, or
`start + ZARRAYSEP + end`. -/
def rangeStr (r : ZRange) : Str :=
  match r.2 with
  | none => nToId r.1
  | some e => nToId r.1 ++ ZARRAYSEP :: nToId e

/-- The scan loop of `ZipService.zipDiffSubset`: walk `hash` in order
with its index, skip ids outside `allS`, open or extend a run on ids in
`value`, flush the run otherwise. -/
def scanRanges (value allS : Finset Str) : List Str → ℕ → Option ZRange → List ZRange
  | [], _, run =>
    (match run with
     | none => []
     | some r => [r])
  | h :: rest, i, run =>
    if h ∈ allS then
      if h ∈ value then
        match run with
        | none => scanRanges value allS rest (i + 1) (some (i, none))
        | some (s, _) => scanRanges value allS rest (i + 1) (some (s, some i))
      else
        match run with
        | none => scanRanges value allS rest (i + 1) none
        | some r => r :: scanRanges value allS rest (i + 1) none
    else scanRanges value allS rest (i + 1) run

/-- The ranges flushed by one full `zipDiffSubset` scan. -/
def zipDiffSubsetRanges (value : Finset Str) (all hash : List Str) : List ZRange :=
  scanRanges value all.toFinset hash 0 none

/-- `ZipService.zipDiffSubset`. -/
def zipDiffSubset (value init : Nullable (Finset Str)) (all hash : List Str) : Str :=
  match value with
  | .val v =>
    if v.card = 0 then
      match init with
      | .val i => if i.card = 0 then [] else ZEMPTY
      | _ => ZEMPTY
    else joinSep ZFIELDSEP ((zipDiffSubsetRanges v all hash).map rangeStr)
  | _ => if init.isNull then [] else ZNULL

/-- Result of a diff codec: a plain string reused in both containers, or
a bare/hashed pair. -/
inductive ZipResult where
  | single (s : Str)
  | pair (bare hashed : Str)
deriving DecidableEq

/-- `ZipService.zipDiffString`. -/
def zipDiffString (value init : Nullable Str) (hash : List Str) : ZipResult :=
  if value.strictEq init then .single []
  else
    match value with
    | .val v => .pair v (nToId (hash.indexOf v))
    | _ => .single ZNULL

/-- `ZipService.zipDiffNumber`. -/
def zipDiffNumber (value init : Nullable ℚ) : Str :=
  if value.strictEq init then []
  else
    match value with
    | .val v => ratToStr v
    | _ => ZNULL

/-- `ZipService.zipDiffRational`: equality through the `eq` method when
both sides are present, `== null` otherwise. -/
def zipDiffRational (value init : Nullable ℚ) : Str :=
  if (match value with
      | .val v =>
        match init with
        | .val i => decide (v = i)
        | _ => false
      | _ => init.isNull) then []
  else
    match value with
    | .val v => ratToStr v
    | _ => ZNULL

/-- `ZipService.zipDiffBool`. -/
def zipDiffBool (value init : Bool) : Str :=
  if value = init then [] else if value then ZTRUE else ZFALSE

/-- The candidate token an index array encodes to (`zVal` and `zInit`
of `zipDiffIndices`). -/
def zipIndicesToken (v : Nullable (List ℤ)) : Str :=
  match v with
  | .val l => if l.length > 0 then joinSep ZARRAYSEP (l.map intToStr) else ZEMPTY
  | _ => ZNULL

/-- `ZipService.zipDiffIndices` (the source returns a plain string on
every path even though its declared type admits a pair). -/
def zipDiffIndices (value init : Nullable (List ℤ)) : Str :=
  if zipIndicesToken value = zipIndicesToken init then [] else zipIndicesToken value

/-- The candidate token a string array encodes to (`zVal` and `zInit`
of `zipDiffArray`). -/
def zipArrayToken (v : Nullable (List Str)) : Str :=
  match v with
  | .val l => if l.length > 0 then joinSep ZARRAYSEP l else ZEMPTY
  | _ => ZNULL

/-- `ZipService.zipDiffArray`. -/
def zipDiffArray (value init : Nullable (List Str)) (hash : List Str) : ZipResult :=
  if zipArrayToken value = zipArrayToken init then .single []
  else
    match value with
    | .val l =>
      .pair (zipArrayToken value)
        (joinSep ZARRAYSEP (l.map (fun v => nToId (hash.indexOf v))))
    | _ => .single ZNULL

/-- `ZipService.parseString` on the no-dictionary path: empty or absent
input and the `ZNULL` sentinel both yield `undefined`. -/
def parseStringV (value : Nullable Str) : Option Str :=
  match value with
  | .val v => if v = [] ∨ v = ZNULL then none else some v
  | _ => none

/-- `ZipService.parseNString`: decode, then index the dictionary (an
out-of-range index yields `undefined`, exactly as `hash[n]` does). -/
def parseNString (value : Nullable Str) (hash : List Str) : Option Str :=
  (parseStringV value).bind (fun v => hash.get? (idToN v))

/-- `ZipService.parseString` with its optional dictionary argument. -/
def parseString (value : Nullable Str) (hash : Option (List Str)) : Option Str :=
  match hash with
  | some h => parseNString value h
  | none => parseStringV value

/-- `ZipService.parseBool`. -/
def parseBool (value : Nullable Str) : Option Bool :=
  match value with
  | .val v => if v = [] ∨ v = ZNULL then none else some (v = ZTRUE)
  | _ => none

/-- `ZipService.parseNNumber`. -/
def parseNNumber (value : Nullable Str) : Option ℕ :=
  match value with
  | .val v => if v = [] ∨ v = ZNULL then none else some (idToN v)
  | _ => none

/-- `ZipService.parseNumber` (the `useNNumber` flag selects the
compacted-number path). -/
def parseNumber (value : Nullable Str) (useNNumber : Bool) : Option ℚ :=
  if useNNumber then (parseNNumber value).map (fun n => (n : ℚ))
  else
    match value with
    | .val v => if v = [] ∨ v = ZNULL then none else some (numFromStr v)
    | _ => none

/-- `ZipService.parseRational`. -/
def parseRational (value : Nullable Str) : Option ℚ :=
  match value with
  | .val v => if v = [] ∨ v = ZNULL then none else some (ratFromStr v)
  | _ => none

/-- `ZipService.parseArray` on the no-dictionary path. -/
def parseArrayV (value : Nullable Str) : Option (List Str) :=
  match value with
  | .val v =>
    if v = [] ∨ v = ZNULL then none
    else if v = ZEMPTY then some []
    else some (splitOnChar ZARRAYSEP v)
  | _ => none

/-- `ZipService.parseNArray`: each element indexes the dictionary, and
an out-of-range element becomes `undefined` inside the array (the TS
annotation `string[]` notwithstanding). -/
def parseNArray (value : Nullable Str) (hash : List Str) : Option (List (Option Str)) :=
  (parseArrayV value).map (fun l => l.map (fun a => hash.get? (idToN a)))

/-- The ids one range token of `parseSubset` contributes: split on the
array separator, expand start and optional end, slice the reference
list inclusively. -/
def parseRangeSlice (hash : List Str) (range : Str) : Finset Str :=
  let ps := (splitOnChar ZARRAYSEP range).map idToN
  let start := ps.headD 0
  let stop :=
    match ps.get? 1 with
    | some e => e + 1
    | none => start + 1
  ((hash.drop start).take (stop - start)).toFinset

/-- `ZipService.parseSubset`: absent or empty is `undefined`, `ZNULL`
is `null`, `ZEMPTY` is the empty set, and otherwise every range token
slices the reference list inclusively and the slices are unioned. -/
def parseSubset (value : Nullable Str) (hash : List Str) : Option (Option (Finset Str)) :=
  match value with
  | .val s =>
    if s = [] then none
    else if s = ZNULL then some none
    else if s = ZEMPTY then some (some ∅)
    else
      some (some ((splitOnChar ZFIELDSEP s).foldl
        (fun acc range => acc ∪ parseRangeSlice hash range) ∅))
  | _ => none

/-- The two candidate containers `getHash` chooses between. -/
inductive Container where
  | bare
  | zip
deriving DecidableEq

/-- The final selection of `RouterService.getHash`: the two candidate
container strings compare by decoded length, against the `MIN_ZIP`
floor.  Building the strings (URL assembly, deflate, percent-decoding)
involves only external collaborators, so the strings are taken as
inputs; the numeric value of `MIN_ZIP` lives outside the given sources
and is a parameter. -/
def getHash (bareStr zipStr : Str) (minZip : ℕ) : Container :=
  if bareStr.length < max zipStr.length minZip then .bare else .zip

/-- Modelled from the spec: the numeric value of the default objective
unit `ObjectiveUnit.Items` (the enum lives outside the given sources;
only equality with the default matters to the codec). -/
def ObjectiveUnitItems : ℚ := 0

/-- Modelled from the spec: the numeric value of the default objective
type `ObjectiveType.Output`. -/
def ObjectiveTypeOutput : ℚ := 0

/-- The objective fields read by `zipObjectives` (`modules` and
`beacons` travel separately through the side-table index maps). -/
structure Objective where
  id : Str
  targetId : Str
  value : ℚ
  unit : ℚ
  type : ℚ
  machineId : Nullable Str
  overclock : Nullable ℚ
  fuelId : Nullable Str

/-- `ZipService.zipArray` on a `number[]` argument. -/
def zipArrayNum (value : Nullable (List ℤ)) : Str :=
  match value with
  | .val v => if v.length = 0 then ZEMPTY else joinSep ZARRAYSEP (v.map intToStr)
  | _ => []

/-- The bare-container record `RouterService.zipObjectives` appends for
one objective; `modulesIdx` and `beaconsIdx` are the side-table index
arrays looked up from the encoding context, absent when the objective
carries no module or beacon settings. -/
def zipObjectiveBare (obj : Objective) (modulesIdx beaconsIdx : Nullable (List ℤ)) : Str :=
  zipFields
    [obj.targetId,
     zipDiffRational (.val obj.value) (.val 1),
     zipDiffNumber (.val obj.unit) (.val ObjectiveUnitItems),
     zipDiffNumber (.val obj.type) (.val ObjectiveTypeOutput),
     zipString obj.machineId,
     zipArrayNum modulesIdx,
     zipArrayNum beaconsIdx,
     zipNumber obj.overclock,
     zipString obj.fuelId]

/-- JS `s[i]` on a split record: a string when present, `undefined`
past the end. -/
def fieldAt (s : List Str) (i : ℕ) : Nullable Str :=
  match s.get? i with
  | some x => .val x
  | none => .undefined

/-- The objective produced back by one record of
`RouterService.unzipObjectives` (bare path; the module/beacon index
arrays are kept as their parsed token lists, their resolution against
the side tables being outside this record). -/
structure ParsedObjective where
  targetId : Str
  value : ℚ
  unit : ℚ
  type : ℚ
  machineId : Option Str
  modules : Option (List Str)
  beacons : Option (List Str)
  overclock : Option ℚ
  fuelId : Option Str
deriving DecidableEq

/-- One record of `RouterService.unzipObjectives` on the bare path:
split on the field separator, read positionally, fill the value, unit
and type defaults by `coalesce`/`??`. -/
def unzipObjectiveBare (record : Str) : ParsedObjective :=
  let s := splitOnChar ZFIELDSEP record
  { targetId := s.headD [],
    value := (parseRational (fieldAt s 1)).getD 1,
    unit := (parseNumber (fieldAt s 2) false).getD ObjectiveUnitItems,
    type := (parseNumber (fieldAt s 3) false).getD ObjectiveTypeOutput,
    machineId := parseString (fieldAt s 4) none,
    modules := parseArrayV (fieldAt s 5),
    beacons := parseArrayV (fieldAt s 6),
    overclock := parseRational (fieldAt s 7),
    fuelId := parseString (fieldAt s 8) none }

/-- What one call of `RouterService.updateState` did: the argument of
the single `dispatch` call if it ran, whether `ready$.next()` fired,
and whether the catch block re-threw. -/
structure UpdateOutcome (σ : Type) where
  dispatched : Option σ
  readySignaled : Bool
  raised : Bool
deriving DecidableEq

/-- Control-flow model of `RouterService.updateState`.  The fallible
collaborators — `inflate` (decompression), `requestData` (dataset
lookup) and the table-driven field parsing phase, any of which may
throw — are abstracted as `Except`-valued steps, exactly in the order
the try block runs them; the early return models the missing-id and
empty-params guard. -/
def updateState {σ Params Hash Err : Type} (modId : Option Str)
    (paramsCount : ℕ) (params : Params) (zipSection : Option Str)
    (inflate : Str → Except Err Params)
    (requestData : Except Err Hash)
    (parseFields : Params → Bool → Hash → Except Err σ) : UpdateOutcome σ :=
  if modId = none ∨ paramsCount = 0 then ⟨none, true, false⟩
  else
    match zipSection with
    | none =>
      match requestData with
      | .error _ => ⟨none, true, true⟩
      | .ok hash =>
        match parseFields params true hash with
        | .error _ => ⟨none, true, true⟩
        | .ok st => ⟨some st, true, false⟩
    | some z =>
      match inflate z with
      | .error _ => ⟨none, true, true⟩
      | .ok p =>
        match requestData with
        | .error _ => ⟨none, true, true⟩
        | .ok hash =>
          match parseFields p false hash with
          | .error _ => ⟨none, true, true⟩
          | .ok st => ⟨some st, true, false⟩

/-- C8 counterexample: an out-of-range compacted index makes
`parseNString` return `undefined`, the very same result as an absent
field — no corrupt-token error is signalled anywhere. -/
theorem c8_counterexample :
    parseNString (.val ['B']) [['x']] = none ∧
    parseNString .undefined [['x']] = none := by
  decide

/-- C8 (amended): a compacted index at or past the dictionary length
decodes to `undefined` in `parseNString`, and to an `undefined` element
inside the array in `parseNArray`; the field is silently dropped, no
error is raised, and callers (being total functions) cannot crash. -/
theorem c8_out_of_range (v : Str) (hash : List Str)
    (hne : v ≠ []) (hnull : v ≠ ZNULL) (hemp : v ≠ ZEMPTY)
    (hfree : ZARRAYSEP ∉ v) (hoor : hash.length ≤ idToN v) :
    parseNString (.val v) hash = none ∧
    parseNArray (.val v) hash = some [none] := by
  have hor : ¬(v = [] ∨ v = ZNULL) := fun h => h.elim hne hnull
  have hget : hash.get? (idToN v) = none := by
    rw [List.get?_eq_getElem?]
    exact List.getElem?_eq_none hoor
  constructor
  · simp only [parseNString, parseStringV, if_neg hor]
    simp [hget, hoor]
  · simp only [parseNArray, parseArrayV, if_neg hor, if_neg hemp,
      splitOnChar_sepFree ZARRAYSEP v hfree]
    simp [hget, hoor]

/-- C8 witness: the one-character token at compacted index one against
a one-entry dictionary. -/
theorem c8_out_of_range_witness :
    parseNString (.val ['B']) [['x']] = none ∧
    parseNArray (.val ['B']) [['x']] = some [none] := by
  have h := c8_out_of_range ['B'] [['x']] (by decide) (by decide)
    (by decide) (by decide) (by decide)
  exact h

/-- C9: `updateState` hydrates atomically: `ready` is signalled on
every path (early return, success, and the finally block after an
error), an error in any step — decompression, dataset lookup or field
parsing — means nothing is ever dispatched, and in particular a failing
dataset request after the guard dispatches nothing and re-raises. -/
theorem c9_update_state_atomic {σ Params Hash Err : Type} (modId : Option Str)
    (paramsCount : ℕ) (params : Params) (zipSection : Option Str)
    (inflate : Str → Except Err Params) (requestData : Except Err Hash)
    (parseFields : Params → Bool → Hash → Except Err σ) :
    (updateState modId paramsCount params zipSection inflate requestData
      parseFields).readySignaled = true ∧
    ((updateState modId paramsCount params zipSection inflate requestData
        parseFields).raised = true →
      (updateState modId paramsCount params zipSection inflate requestData
        parseFields).dispatched = none) ∧
    (∀ e : Err, modId ≠ none → paramsCount ≠ 0 → requestData = .error e →
      updateState modId paramsCount params zipSection inflate requestData
        parseFields = ⟨none, true, true⟩) := by
  by_cases hg : modId = none ∨ paramsCount = 0
  · rw [updateState.eq_def, if_pos hg]
    refine ⟨rfl, ?_, ?_⟩
    · intro h
      cases h
    · intro e hm hc _
      rcases hg with hg | hg
      · exact absurd hg hm
      · exact absurd hg hc
  · rcases zipSection with _ | z
    · rcases requestData with e | hash
      · simp [updateState.eq_def, if_neg hg]
      · rcases hpf : parseFields params true hash with e | st <;>
          simp [updateState.eq_def, if_neg hg, hpf]
    · rcases hinf : inflate z with e | p
      · simp [updateState.eq_def, if_neg hg, hinf]
      · rcases requestData with e | hash
        · simp [updateState.eq_def, if_neg hg, hinf]
        · rcases hpf : parseFields p false hash with e | st <;>
            simp [updateState.eq_def, if_neg hg, hinf, hpf]

/-- C9 witness: a failing dataset request with a present mod id and
nonempty params dispatches nothing, raises, and still signals ready. -/
theorem c9_update_state_atomic_witness :
    @updateState Bool Bool Bool Unit (some ['m']) 1 true none
        (fun _ => .ok true) (.error ()) (fun _ _ _ => .ok true)
      = ⟨none, true, true⟩ :=
  (c9_update_state_atomic (some ['m']) 1 true none (fun _ => .ok true) (.error ())
    (fun _ _ _ => .ok true)).2.2 () (by simp) (by omega) rfl

/-- Last position a flushed range covers (its end, or its start when no
end was recorded). -/
def runLast (r : ZRange) : ℕ := r.2.getD r.1

/-- A well-formed flushed range: in bounds, start before end, and every
covered position holds a selected id. -/
def okRange (ref : List Str) (value : Finset Str) (r : ZRange) : Prop :=
  r.1 ≤ runLast r ∧ runLast r < ref.length ∧
  ∀ p, r.1 ≤ p → p ≤ runLast r → ref.getD p [] ∈ value

/-- Invariant of the open run while the scan sits at index `i`: it is
well formed and its last recorded position is exactly `i - 1`. -/
def runInv (ref : List Str) (value : Finset Str) (i : ℕ) : Option ZRange → Prop
  | none => True
  | some r => okRange ref value r ∧ runLast r + 1 = i

/-- Position `p` is covered by one of the flushed ranges. -/
def inRanges (R : List ZRange) (p : ℕ) : Prop :=
  ∃ r ∈ R, r.1 ≤ p ∧ p ≤ runLast r

/-- Position `p` is covered by the open run. -/
def pendingP : Option ZRange → ℕ → Prop
  | none, _ => False
  | some r, p => r.1 ≤ p ∧ p ≤ runLast r

theorem inRanges_nil (p : ℕ) : ¬ inRanges [] p := by
  simp [inRanges]

theorem inRanges_cons (r : ZRange) (R : List ZRange) (p : ℕ) :
    inRanges (r :: R) p ↔ (r.1 ≤ p ∧ p ≤ runLast r) ∨ inRanges R p := by
  simp only [inRanges, List.mem_cons]
  constructor
  · rintro ⟨x, rfl | hx, h1, h2⟩
    · exact Or.inl ⟨h1, h2⟩
    · exact Or.inr ⟨x, hx, h1, h2⟩
  · rintro (⟨h1, h2⟩ | ⟨x, hx, h1, h2⟩)
    · exact ⟨r, Or.inl rfl, h1, h2⟩
    · exact ⟨x, Or.inr hx, h1, h2⟩

/-- Core invariant of the `zipDiffSubset` scan when no id of the
reference ordering is skipped (every reference id is in the membership
set): every flushed range is well formed, and the flushed ranges
together cover the pending run plus exactly the positions at or past
`i` that hold a selected id. -/
theorem scan_master (value allS : Finset Str) (ref : List Str)
    (hall : ∀ h ∈ ref, h ∈ allS) :
    ∀ rest i run, rest = ref.drop i → i ≤ ref.length →
      runInv ref value i run →
      (∀ r ∈ scanRanges value allS rest i run, okRange ref value r) ∧
      (∀ p, inRanges (scanRanges value allS rest i run) p ↔
        (pendingP run p ∨ (i ≤ p ∧ p < ref.length ∧ ref.getD p [] ∈ value))) := by
  intro rest
  induction rest with
  | nil =>
    intro i run hdrop hile hinv
    have hlen : ref.length ≤ i := List.drop_eq_nil_iff.mp hdrop.symm
    have hieq : i = ref.length := le_antisymm hile hlen
    cases run with
    | none =>
      refine ⟨fun r hr => absurd hr (by simp [scanRanges]), fun p => ?_⟩
      simp only [scanRanges]
      constructor
      · intro hp
        exact absurd hp (inRanges_nil p)
      · rintro (hp | ⟨h1, h2, _⟩)
        · exact absurd hp id
        · omega
    | some r =>
      obtain ⟨hok, hlast⟩ := hinv
      refine ⟨?_, fun p => ?_⟩
      · intro r' hr'
        simp only [scanRanges, List.mem_singleton] at hr'
        exact hr' ▸ hok
      · simp only [scanRanges]
        rw [inRanges_cons]
        simp only [inRanges_nil, or_false, pendingP]
        constructor
        · intro hp
          exact Or.inl hp
        · rintro (hp | ⟨h1, h2, _⟩)
          · exact hp
          · omega
  | cons h t ih =>
    intro i run hdrop hile hinv
    have hget : ref[i]? = some h := by
      have h0 : (ref.drop i)[0]? = some h := by rw [← hdrop]; simp
      rw [List.getElem?_drop, Nat.add_zero] at h0
      exact h0
    obtain ⟨hilt, hgetEq⟩ := List.getElem?_eq_some.mp hget
    have hgetD : ref.getD i [] = h := by
      rw [List.getD_eq_getElem?_getD, hget, Option.getD_some]
    have hmem : h ∈ ref :=
      List.drop_subset i ref (by rw [← hdrop]; exact List.mem_cons_self h t)
    have htail : t = ref.drop (i + 1) := by
      have h1 := List.tail_drop ref i
      rw [← hdrop] at h1
      simpa using h1
    have hA : h ∈ allS := hall h hmem
    by_cases hv : h ∈ value
    · cases run with
      | none =>
        have hinv' : runInv ref value (i + 1) (some (i, none)) := by
          refine ⟨⟨le_rfl, ?_, ?_⟩, ?_⟩
          · simpa [runLast] using hilt
          · intro p hp1 hp2
            simp only [runLast, Option.getD_none] at hp2
            have hpi : p = i := le_antisymm hp2 hp1
            rw [hpi, hgetD]
            exact hv
          · simp [runLast]
        obtain ⟨ihok, ihiff⟩ := ih (i + 1) (some (i, none)) htail (by omega) hinv'
        have hstep : scanRanges value allS (h :: t) i none =
            scanRanges value allS t (i + 1) (some (i, none)) := by
          simp only [scanRanges, if_pos hA, if_pos hv]
        rw [hstep]
        refine ⟨ihok, fun p => ?_⟩
        rw [ihiff p]
        simp only [pendingP, runLast, Option.getD_none]
        constructor
        · rintro (⟨h1, h2⟩ | ⟨h1, h2, h3⟩)
          · have hpi : p = i := le_antisymm h2 h1
            refine Or.inr ⟨le_of_eq hpi.symm, ?_, ?_⟩
            · rw [hpi]; exact hilt
            · rw [hpi, hgetD]; exact hv
          · exact Or.inr ⟨by omega, h2, h3⟩
        · rintro (hp | ⟨h1, h2, h3⟩)
          · exact absurd hp id
          · by_cases hpi : p = i
            · exact Or.inl ⟨le_of_eq hpi.symm, le_of_eq hpi⟩
            · exact Or.inr ⟨by omega, h2, h3⟩
      | some se =>
        obtain ⟨s0, e0⟩ := se
        obtain ⟨⟨hsl, hll, hcov⟩, hlast⟩ := hinv
        simp only [runLast] at hsl hll hlast hcov
        have hinv' : runInv ref value (i + 1) (some (s0, some i)) := by
          refine ⟨⟨?_, ?_, ?_⟩, ?_⟩
          · simp only [runLast, Option.getD_some]
            omega
          · simpa [runLast] using hilt
          · intro p hp1 hp2
            simp only [runLast, Option.getD_some] at hp2
            by_cases hpi : p = i
            · rw [hpi, hgetD]; exact hv
            · exact hcov p hp1 (by omega)
          · simp [runLast]
        obtain ⟨ihok, ihiff⟩ := ih (i + 1) (some (s0, some i)) htail (by omega) hinv'
        have hstep : scanRanges value allS (h :: t) i (some (s0, e0)) =
            scanRanges value allS t (i + 1) (some (s0, some i)) := by
          simp only [scanRanges, if_pos hA, if_pos hv]
        rw [hstep]
        refine ⟨ihok, fun p => ?_⟩
        rw [ihiff p]
        simp only [pendingP, runLast, Option.getD_some]
        constructor
        · rintro (⟨h1, h2⟩ | ⟨h1, h2, h3⟩)
          · by_cases hpl : p ≤ e0.getD s0
            · exact Or.inl ⟨h1, hpl⟩
            · have hpi : p = i := by omega
              refine Or.inr ⟨le_of_eq hpi.symm, ?_, ?_⟩
              · rw [hpi]; exact hilt
              · rw [hpi, hgetD]; exact hv
          · exact Or.inr ⟨by omega, h2, h3⟩
        · rintro (⟨h1, h2⟩ | ⟨h1, h2, h3⟩)
          · exact Or.inl ⟨h1, by omega⟩
          · by_cases hpi : p = i
            · exact Or.inl ⟨by omega, by omega⟩
            · exact Or.inr ⟨by omega, h2, h3⟩
    · cases run with
      | none =>
        obtain ⟨ihok, ihiff⟩ := ih (i + 1) none htail (by omega) trivial
        have hstep : scanRanges value allS (h :: t) i none =
            scanRanges value allS t (i + 1) none := by
          simp only [scanRanges, if_pos hA, if_neg hv]
        rw [hstep]
        refine ⟨ihok, fun p => ?_⟩
        rw [ihiff p]
        simp only [pendingP]
        constructor
        · rintro (hp | ⟨h1, h2, h3⟩)
          · exact absurd hp id
          · exact Or.inr ⟨by omega, h2, h3⟩
        · rintro (hp | ⟨h1, h2, h3⟩)
          · exact absurd hp id
          · by_cases hpi : p = i
            · rw [hpi, hgetD] at h3
              exact absurd h3 hv
            · exact Or.inr ⟨by omega, h2, h3⟩
      | some se =>
        obtain ⟨s0, e0⟩ := se
        obtain ⟨hok, hlast⟩ := hinv
        obtain ⟨ihok, ihiff⟩ := ih (i + 1) none htail (by omega) trivial
        have hstep : scanRanges value allS (h :: t) i (some (s0, e0)) =
            (s0, e0) :: scanRanges value allS t (i + 1) none := by
          simp only [scanRanges, if_pos hA, if_neg hv]
        rw [hstep]
        refine ⟨?_, fun p => ?_⟩
        · intro r' hr'
          rcases List.mem_cons.mp hr' with rfl | hr'
          · exact hok
          · exact ihok r' hr'
        · rw [inRanges_cons, ihiff p]
          simp only [pendingP]
          constructor
          · rintro (⟨h1, h2⟩ | hp | ⟨h1, h2, h3⟩)
            · exact Or.inl ⟨h1, h2⟩
            · exact absurd hp id
            · exact Or.inr ⟨by omega, h2, h3⟩
          · rintro (⟨h1, h2⟩ | ⟨h1, h2, h3⟩)
            · exact Or.inl ⟨h1, h2⟩
            · by_cases hpi : p = i
              · rw [hpi, hgetD] at h3
                exact absurd h3 hv
              · exact Or.inr (Or.inr ⟨by omega, h2, h3⟩)

/-- The scan only ever tests membership of reference ids, so two
selections agreeing on the scanned ids produce identical ranges. -/
theorem scan_congr (v1 v2 allS : Finset Str) :
    ∀ rest i run, (∀ h ∈ rest, (h ∈ v1 ↔ h ∈ v2)) →
      scanRanges v1 allS rest i run = scanRanges v2 allS rest i run := by
  intro rest
  induction rest with
  | nil => intro i run _; rfl
  | cons h t ih =>
    intro i run hagree
    have hh := hagree h (List.mem_cons_self h t)
    have ht : ∀ x ∈ t, (x ∈ v1 ↔ x ∈ v2) :=
      fun x hx => hagree x (List.mem_cons_of_mem h hx)
    by_cases hA : h ∈ allS
    · by_cases hv : h ∈ v1
      · have hv2 : h ∈ v2 := hh.mp hv
        cases run with
        | none =>
          simp only [scanRanges, if_pos hA, if_pos hv, if_pos hv2, ih (i + 1) _ ht]
        | some se =>
          obtain ⟨s0, e0⟩ := se
          simp only [scanRanges, if_pos hA, if_pos hv, if_pos hv2, ih (i + 1) _ ht]
      · have hv2 : h ∉ v2 := fun hx => hv (hh.mpr hx)
        cases run with
        | none =>
          simp only [scanRanges, if_pos hA, if_neg hv, if_neg hv2, ih (i + 1) _ ht]
        | some se =>
          obtain ⟨s0, e0⟩ := se
          simp only [scanRanges, if_pos hA, if_neg hv, if_neg hv2, ih (i + 1) _ ht]
    · simp only [scanRanges, if_neg hA, ih (i + 1) _ ht]

/-- `zipDiffSubsetRanges` at the top level: every flushed range is well
formed and the covered positions are exactly the selected ones. -/
theorem zipDiffSubsetRanges_spec (value : Finset Str) (all ref : List Str)
    (hall : ∀ h ∈ ref, h ∈ all.toFinset) :
    (∀ r ∈ zipDiffSubsetRanges value all ref, okRange ref value r) ∧
    (∀ p, inRanges (zipDiffSubsetRanges value all ref) p ↔
      (p < ref.length ∧ ref.getD p [] ∈ value)) := by
  obtain ⟨h1, h2⟩ :=
    scan_master value all.toFinset ref hall ref 0 none (by simp) (by omega) trivial
  refine ⟨h1, fun p => ?_⟩
  rw [zipDiffSubsetRanges, h2 p]
  simp only [pendingP, false_or, Nat.zero_le, true_and]

theorem ZARRAYSEP_not_mem_nToId (n : ℕ) : ZARRAYSEP ∉ nToId n := by
  intro hc
  exact absurd (nToId_mem_alphabet n ZARRAYSEP hc) (by decide)

theorem ZFIELDSEP_not_mem_nToId (n : ℕ) : ZFIELDSEP ∉ nToId n := by
  intro hc
  exact absurd (nToId_mem_alphabet n ZFIELDSEP hc) (by decide)

theorem ZFIELDSEP_not_mem_rangeStr (r : ZRange) : ZFIELDSEP ∉ rangeStr r := by
  obtain ⟨s, e⟩ := r
  cases e with
  | none => exact ZFIELDSEP_not_mem_nToId s
  | some e0 =>
    intro hc
    rcases List.mem_append.mp hc with hc | hc
    · exact ZFIELDSEP_not_mem_nToId s hc
    · rcases List.mem_cons.mp hc with hc | hc
      · exact absurd hc (by decide)
      · exact ZFIELDSEP_not_mem_nToId e0 hc

theorem splitOnChar_rangeStr_none (s : ℕ) :
    splitOnChar ZARRAYSEP (rangeStr (s, none)) = [nToId s] :=
  splitOnChar_sepFree ZARRAYSEP (nToId s) (ZARRAYSEP_not_mem_nToId s)

theorem splitOnChar_rangeStr_some (s e : ℕ) :
    splitOnChar ZARRAYSEP (rangeStr (s, some e)) = [nToId s, nToId e] := by
  show splitOnChar ZARRAYSEP (nToId s ++ ZARRAYSEP :: nToId e) = [nToId s, nToId e]
  rw [splitOnChar_append_cons ZARRAYSEP (nToId s) (nToId e) (ZARRAYSEP_not_mem_nToId s),
    splitOnChar_sepFree ZARRAYSEP (nToId e) (ZARRAYSEP_not_mem_nToId e)]

/-- Parsing the emitted text of a flushed range slices the reference
list from its start to its last covered position, inclusively. -/
theorem parseRangeSlice_rangeStr (ref : List Str) (r : ZRange) :
    parseRangeSlice ref (rangeStr r) =
      ((ref.drop r.1).take (runLast r + 1 - r.1)).toFinset := by
  obtain ⟨s, e⟩ := r
  cases e with
  | none =>
    simp [parseRangeSlice, splitOnChar_rangeStr_none, idToN_nToId, runLast]
  | some e0 =>
    simp [parseRangeSlice, splitOnChar_rangeStr_some, idToN_nToId, runLast]

/-- Membership of a take-of-drop slice, phrased by positions of the
underlying list. -/
theorem mem_slice_iff (ref : List Str) (s k : ℕ) (x : Str) :
    x ∈ (ref.drop s).take k ↔
      ∃ p, s ≤ p ∧ p < s + k ∧ p < ref.length ∧ ref.getD p [] = x := by
  rw [List.mem_iff_getElem]
  constructor
  · rintro ⟨j, hj, hEq⟩
    have hj' : j < k ∧ j < ref.length - s := by
      rw [List.length_take, List.length_drop] at hj
      exact ⟨lt_of_lt_of_le hj inf_le_left, lt_of_lt_of_le hj inf_le_right⟩
    refine ⟨s + j, by omega, by omega, by omega, ?_⟩
    rw [List.getD_eq_getElem?_getD, List.getElem?_eq_getElem (by omega : s + j < ref.length),
      Option.getD_some, ← hEq, List.getElem_take, List.getElem_drop]
  · rintro ⟨p, hp1, hp2, hp3, hEq⟩
    obtain ⟨j, rfl⟩ : ∃ j, p = s + j := ⟨p - s, by omega⟩
    refine ⟨j, ?_, ?_⟩
    · rw [List.length_take, List.length_drop]
      exact lt_min (by omega) (by omega)
    · rw [List.getElem_take, List.getElem_drop]
      rw [List.getD_eq_getElem?_getD,
        List.getElem?_eq_getElem (by omega : s + j < ref.length), Option.getD_some] at hEq
      exact hEq

/-- Membership of a union-accumulating fold. -/
theorem foldl_union_mem {α β : Type} [DecidableEq α] (f : β → Finset α) :
    ∀ (L : List β) (A : Finset α) (x : α),
      x ∈ L.foldl (fun acc b => acc ∪ f b) A ↔ x ∈ A ∨ ∃ b ∈ L, x ∈ f b := by
  intro L
  induction L with
  | nil => simp
  | cons b t ih =>
    intro A x
    rw [List.foldl_cons, ih (A ∪ f b) x]
    simp only [Finset.mem_union, List.mem_cons]
    constructor
    · rintro ((hx | hx) | ⟨c, hc, hx⟩)
      · exact Or.inl hx
      · exact Or.inr ⟨b, Or.inl rfl, hx⟩
      · exact Or.inr ⟨c, Or.inr hc, hx⟩
    · rintro (hx | ⟨c, rfl | hc, hx⟩)
      · exact Or.inl (Or.inl hx)
      · exact Or.inl (Or.inr hx)
      · exact Or.inr ⟨c, hc, hx⟩

theorem joinSep_head (sep : Char) (x : Str) (L : List Str) (hx : x ≠ []) :
    (joinSep sep (x :: L)).head? = x.head? := by
  cases L with
  | nil => rfl
  | cons y t =>
    show (x ++ sep :: joinSep sep (y :: t)).head? = x.head?
    cases x with
    | nil => exact absurd rfl hx
    | cons c cs => rfl

theorem rangeStr_head (r : ZRange) : (rangeStr r).head? = (nToId r.1).head? := by
  obtain ⟨s, e⟩ := r
  cases e with
  | none => rfl
  | some e0 =>
    show (nToId s ++ ZARRAYSEP :: nToId e0).head? = (nToId s).head?
    rcases hn : nToId s with _ | ⟨c, cs⟩
    · exact absurd hn (nToId_ne_nil s)
    · rfl

theorem nToId_head_alphabet (n : ℕ) :
    ∃ c, (nToId n).head? = some c ∧ c ∈ alphabet := by
  rcases hn : nToId n with _ | ⟨c, cs⟩
  · exact absurd hn (nToId_ne_nil n)
  · exact ⟨c, rfl, nToId_mem_alphabet n c (by rw [hn]; exact List.mem_cons_self c cs)⟩

theorem rangeStr_ne_nil (r : ZRange) : rangeStr r ≠ [] := by
  obtain ⟨s, e⟩ := r
  cases e with
  | none => exact nToId_ne_nil s
  | some e0 =>
    show nToId s ++ ZARRAYSEP :: nToId e0 ≠ []
    simp

theorem joinSep_ranges_head (r : ZRange) (R : List ZRange) :
    ∃ c, (joinSep ZFIELDSEP ((r :: R).map rangeStr)).head? = some c ∧ c ∈ alphabet := by
  obtain ⟨c, hc, hmem⟩ := nToId_head_alphabet r.1
  refine ⟨c, ?_, hmem⟩
  rw [List.map_cons, joinSep_head ZFIELDSEP (rangeStr r) (R.map rangeStr) (rangeStr_ne_nil r),
    rangeStr_head, hc]

/-- Decoding the joined range tokens of a nonempty scan recovers
exactly the selected ids that occur in the reference ordering. -/
theorem parseSubset_ranges (value : Finset Str) (all ref : List Str)
    (hall : ∀ h ∈ ref, h ∈ all.toFinset)
    (r0 : ZRange) (R' : List ZRange)
    (hR : zipDiffSubsetRanges value all ref = r0 :: R') :
    parseSubset (.val (joinSep ZFIELDSEP ((zipDiffSubsetRanges value all ref).map rangeStr))) ref
      = some (some (value ∩ ref.toFinset)) := by
  obtain ⟨hok, hcover⟩ := zipDiffSubsetRanges_spec value all ref hall
  rw [hR] at hok hcover ⊢
  obtain ⟨c, hhead, hcA⟩ := joinSep_ranges_head r0 R'
  set token := joinSep ZFIELDSEP ((r0 :: R').map rangeStr) with htokdef
  have htne : token ≠ [] := by
    intro h
    rw [h] at hhead
    exact absurd hhead (by simp)
  have htnull : token ≠ ZNULL := by
    intro h
    rw [h] at hhead
    have : c = '?' := by
      have := hhead
      simp [ZNULL] at this
      exact this.symm
    exact absurd (this ▸ hcA) (by decide)
  have htempty : token ≠ ZEMPTY := by
    intro h
    rw [h] at hhead
    have : c = '=' := by
      have := hhead
      simp [ZEMPTY] at this
      exact this.symm
    exact absurd (this ▸ hcA) (by decide)
  have hsplit : splitOnChar ZFIELDSEP token = (r0 :: R').map rangeStr := by
    refine splitOnChar_joinSep ZFIELDSEP _ (by simp) ?_
    intro x hx
    rw [List.mem_map] at hx
    obtain ⟨r, _, rfl⟩ := hx
    exact ZFIELDSEP_not_mem_rangeStr r
  have hset : (splitOnChar ZFIELDSEP token).foldl
      (fun acc range => acc ∪ parseRangeSlice ref range) ∅ = value ∩ ref.toFinset := by
    rw [hsplit]
    apply Finset.ext
    intro x
    rw [foldl_union_mem, Finset.mem_inter, List.mem_toFinset]
    simp only [Finset.not_mem_empty, false_or]
    constructor
    · rintro ⟨b, hb, hx⟩
      rw [List.mem_map] at hb
      obtain ⟨r, hrR, rfl⟩ := hb
      rw [parseRangeSlice_rangeStr, List.mem_toFinset, mem_slice_iff] at hx
      obtain ⟨p, hp1, hp2, hp3, hpx⟩ := hx
      obtain ⟨hr1, hr2, hr3⟩ := hok r hrR
      have hple : p ≤ runLast r := by omega
      refine ⟨hpx ▸ hr3 p hp1 hple, ?_⟩
      rw [← hpx, List.getD_eq_getElem?_getD, List.getElem?_eq_getElem hp3, Option.getD_some]
      exact List.getElem_mem hp3
    · rintro ⟨hxval, hxref⟩
      obtain ⟨p, hp, hpx⟩ := List.mem_iff_getElem.mp hxref
      have hgD : ref.getD p [] = x := by
        rw [List.getD_eq_getElem?_getD, List.getElem?_eq_getElem hp, Option.getD_some]
        exact hpx
      have hcov : inRanges (r0 :: R') p := (hcover p).mpr ⟨hp, by rw [hgD]; exact hxval⟩
      simp only [inRanges] at hcov
      obtain ⟨r, hrR, hpr1, hpr2⟩ := hcov
      refine ⟨rangeStr r, List.mem_map_of_mem rangeStr hrR, ?_⟩
      rw [parseRangeSlice_rangeStr, List.mem_toFinset, mem_slice_iff]
      obtain ⟨hr1, hr2, hr3⟩ := hok r hrR
      exact ⟨p, hpr1, by omega, by omega, hgD⟩
  show parseSubset (.val token) ref = some (some (value ∩ ref.toFinset))
  simp only [parseSubset, if_neg htne, if_neg htnull, if_neg htempty, hset]

/-- C1 counterexample: with selection and baseline both the empty set
the encoder emits the omission sentinel, the empty string, and
`parseSubset` decodes the empty string to `undefined` rather than to
the empty selection, so the claimed round-trip equation fails there. -/
theorem c1_counterexample :
    parseSubset
        (.val (zipDiffSubset (.val (∅ : Finset Str)) (.val (∅ : Finset Str))
          [['a']] [['a']]))
        [['a']]
      ≠ some (some ((∅ : Finset Str) ∩ ([['a']] : List Str).toFinset)) := by
  decide

/-- C1 (amended): for a duplicate-free reference ordering `ref` drawn
from the membership set `all`, a selection `value` inside `all` and any
baseline `init`, whenever the emitted subset token is nonempty,
`parseSubset` recovers exactly the part of `value` expressible under
`ref`, and re-encoding that decoded selection with the same baseline
reproduces the token.  When the token is empty — `value` and `init`
both empty, or `value` disjoint from `ref` — `parseSubset` returns
`undefined` instead, which is the one correction to the claim. -/
theorem c1_subset_roundtrip (value : Finset Str) (init : Nullable (Finset Str))
    (all ref : List Str) (_hnodup : ref.Nodup) (hsub : ∀ h ∈ ref, h ∈ all)
    (_hval : ∀ x ∈ value, x ∈ all)
    (htok : zipDiffSubset (.val value) init all ref ≠ []) :
    parseSubset (.val (zipDiffSubset (.val value) init all ref)) ref
      = some (some (value ∩ ref.toFinset)) ∧
    zipDiffSubset (.val (value ∩ ref.toFinset)) init all ref
      = zipDiffSubset (.val value) init all ref := by
  have hall : ∀ h ∈ ref, h ∈ all.toFinset := fun h hh => List.mem_toFinset.mpr (hsub h hh)
  by_cases hv : value.card = 0
  · have hveq : value = ∅ := Finset.card_eq_zero.mp hv
    subst hveq
    have hint : (∅ : Finset Str) ∩ ref.toFinset = ∅ := Finset.empty_inter _
    have htokeq : zipDiffSubset (.val (∅ : Finset Str)) init all ref = ZEMPTY := by
      cases init with
      | undefined => rfl
      | null => rfl
      | val i =>
        by_cases hi : i.card = 0
        · exact absurd (by simp [zipDiffSubset, hi]) htok
        · simp [zipDiffSubset, hi]
    refine ⟨?_, ?_⟩
    · rw [htokeq, hint]
      have h1 : ZEMPTY ≠ ([] : Str) := by decide
      have h2 : ZEMPTY ≠ ZNULL := by decide
      simp only [parseSubset, if_neg h1, if_neg h2]
      simp
    · rw [hint]
  · have htokform : zipDiffSubset (.val value) init all ref =
        joinSep ZFIELDSEP ((zipDiffSubsetRanges value all ref).map rangeStr) := by
      simp [zipDiffSubset, hv]
    rcases hRr : zipDiffSubsetRanges value all ref with _ | ⟨r0, R'⟩
    · exact absurd (by rw [htokform, hRr]; rfl) htok
    · refine ⟨?_, ?_⟩
      · rw [htokform]
        exact parseSubset_ranges value all ref hall r0 R' hRr
      · obtain ⟨hok, _⟩ := zipDiffSubsetRanges_spec value all ref hall
        obtain ⟨hr1, hr2, hr3⟩ :=
          hok r0 (by rw [hRr]; exact List.mem_cons_self r0 R')
        have hx : ref.getD r0.1 [] ∈ value ∩ ref.toFinset := by
          rw [Finset.mem_inter, List.mem_toFinset]
          refine ⟨hr3 r0.1 le_rfl hr1, ?_⟩
          rw [List.getD_eq_getElem?_getD,
            List.getElem?_eq_getElem (by omega : r0.1 < ref.length), Option.getD_some]
          exact List.getElem_mem _
        have hcard : (value ∩ ref.toFinset).card ≠ 0 := by
          intro h0
          rw [Finset.card_eq_zero] at h0
          rw [h0] at hx
          exact absurd hx (Finset.not_mem_empty _)
        have hcongr : zipDiffSubsetRanges (value ∩ ref.toFinset) all ref =
            zipDiffSubsetRanges value all ref := by
          unfold zipDiffSubsetRanges
          exact scan_congr _ _ _ ref 0 none
            (fun h hh => ⟨fun hxx => (Finset.mem_inter.mp hxx).1,
              fun hxx => Finset.mem_inter.mpr ⟨hxx, List.mem_toFinset.mpr hh⟩⟩)
        rw [htokform]
        simp only [zipDiffSubset, if_neg hcard]
        rw [hcongr]

/-- C1 witness: the round-trip at the spec's Scenario A, selection of
positions 1 and 2 of a four-id reference list. -/
theorem c1_subset_roundtrip_witness :
    parseSubset
        (.val (zipDiffSubset (.val ({['b'], ['c']} : Finset Str)) .undefined
          [['a'], ['b'], ['c'], ['d']] [['a'], ['b'], ['c'], ['d']]))
        [['a'], ['b'], ['c'], ['d']]
      = some (some (({['b'], ['c']} : Finset Str) ∩
          ([['a'], ['b'], ['c'], ['d']] : List Str).toFinset)) ∧
    zipDiffSubset
        (.val (({['b'], ['c']} : Finset Str) ∩
          ([['a'], ['b'], ['c'], ['d']] : List Str).toFinset)) .undefined
        [['a'], ['b'], ['c'], ['d']] [['a'], ['b'], ['c'], ['d']]
      = zipDiffSubset (.val ({['b'], ['c']} : Finset Str)) .undefined
          [['a'], ['b'], ['c'], ['d']] [['a'], ['b'], ['c'], ['d']] :=
  c1_subset_roundtrip {['b'], ['c']} .undefined [['a'], ['b'], ['c'], ['d']]
    [['a'], ['b'], ['c'], ['d']] (by decide) (by decide) (by decide) (by decide)

/-- C10: with reference ordering x, y, z, membership set of x and z
only, and selection of x and z, the scan leaves its run open across y
and emits the single range covering positions 0 through 2; decoding
that token over the same reference ordering returns the set of x, y
and z, a strict superset of the encoded selection. -/
theorem c10_superset_decode :
    zipDiffSubset (.val ({['x'], ['z']} : Finset Str)) .undefined [['x'], ['z']]
        [['x'], ['y'], ['z']] = ['A', '~', 'C'] ∧
    parseSubset (.val ['A', '~', 'C']) [['x'], ['y'], ['z']]
      = some (some ({['x'], ['y'], ['z']} : Finset Str)) ∧
    ({['x'], ['z']} : Finset Str) ⊂ {['x'], ['y'], ['z']} := by
  decide

/-- Endpoint soundness of the scan, with skipping allowed: every start
or end position a flushed range records holds an id that is in the
membership set and in the selection at the moment it was recorded. -/
theorem scan_endpoints (value allS : Finset Str) (ref : List Str) :
    ∀ rest i run, rest = ref.drop i →
      (∀ r0, run = some r0 →
        (r0.1 < ref.length ∧ ref.getD r0.1 [] ∈ allS ∧ ref.getD r0.1 [] ∈ value) ∧
        (∀ e, r0.2 = some e →
          e < ref.length ∧ ref.getD e [] ∈ allS ∧ ref.getD e [] ∈ value)) →
      ∀ r ∈ scanRanges value allS rest i run,
        (r.1 < ref.length ∧ ref.getD r.1 [] ∈ allS ∧ ref.getD r.1 [] ∈ value) ∧
        (∀ e, r.2 = some e →
          e < ref.length ∧ ref.getD e [] ∈ allS ∧ ref.getD e [] ∈ value) := by
  intro rest
  induction rest with
  | nil =>
    intro i run _ hinv r hr
    cases run with
    | none => exact absurd hr (by simp [scanRanges])
    | some r0 =>
      simp only [scanRanges, List.mem_singleton] at hr
      exact hr ▸ hinv r0 rfl
  | cons h t ih =>
    intro i run hdrop hinv r hr
    have hget : ref[i]? = some h := by
      have h0 : (ref.drop i)[0]? = some h := by rw [← hdrop]; simp
      rw [List.getElem?_drop, Nat.add_zero] at h0
      exact h0
    obtain ⟨hilt, hgetEq⟩ := List.getElem?_eq_some.mp hget
    have hgetD : ref.getD i [] = h := by
      rw [List.getD_eq_getElem?_getD, hget, Option.getD_some]
    have htail : t = ref.drop (i + 1) := by
      have h1 := List.tail_drop ref i
      rw [← hdrop] at h1
      simpa using h1
    by_cases hA : h ∈ allS
    · by_cases hv : h ∈ value
      · cases run with
        | none =>
          rw [show scanRanges value allS (h :: t) i none =
              scanRanges value allS t (i + 1) (some (i, none)) by
            simp only [scanRanges, if_pos hA, if_pos hv]] at hr
          refine ih (i + 1) (some (i, none)) htail ?_ r hr
          intro r0 h0
          obtain rfl := Option.some.inj h0
          exact ⟨⟨hilt, hgetD ▸ hA, hgetD ▸ hv⟩, by rintro e h1; cases h1⟩
        | some se =>
          obtain ⟨s0, e0⟩ := se
          rw [show scanRanges value allS (h :: t) i (some (s0, e0)) =
              scanRanges value allS t (i + 1) (some (s0, some i)) by
            simp only [scanRanges, if_pos hA, if_pos hv]] at hr
          refine ih (i + 1) (some (s0, some i)) htail ?_ r hr
          intro r0 h0
          obtain rfl := Option.some.inj h0
          refine ⟨(hinv (s0, e0) rfl).1, ?_⟩
          rintro e he
          obtain rfl : i = e := by simpa using he
          exact ⟨hilt, hgetD ▸ hA, hgetD ▸ hv⟩
      · cases run with
        | none =>
          rw [show scanRanges value allS (h :: t) i none =
              scanRanges value allS t (i + 1) none by
            simp only [scanRanges, if_pos hA, if_neg hv]] at hr
          exact ih (i + 1) none htail (by rintro r0 h0; cases h0) r hr
        | some se =>
          obtain ⟨s0, e0⟩ := se
          rw [show scanRanges value allS (h :: t) i (some (s0, e0)) =
              (s0, e0) :: scanRanges value allS t (i + 1) none by
            simp only [scanRanges, if_pos hA, if_neg hv]] at hr
          rcases List.mem_cons.mp hr with rfl | hr
          · exact hinv (s0, e0) rfl
          · exact ih (i + 1) none htail (by rintro r0 h0; cases h0) r hr
    · rw [show scanRanges value allS (h :: t) i run =
          scanRanges value allS t (i + 1) run by
        simp only [scanRanges, if_neg hA]] at hr
      exact ih (i + 1) run htail hinv r hr

/-- C7: during subset encoding by `zipDiffSubset`, a position of the
reference ordering whose id is outside the membership set is never
emitted as a range start or as a range end, so the encoder can never
deliberately express such an id. -/
theorem c7_excluded_never_endpoint (value : Finset Str) (all ref : List Str)
    (p : ℕ) (_hp : p < ref.length) (hout : ref.getD p [] ∉ all.toFinset) :
    ∀ r ∈ zipDiffSubsetRanges value all ref, r.1 ≠ p ∧ r.2 ≠ some p := by
  intro r hr
  have hspec := scan_endpoints value all.toFinset ref ref 0 none (by simp)
    (by rintro r0 h0; cases h0) r hr
  obtain ⟨⟨_, hsA, _⟩, hend⟩ := hspec
  constructor
  · intro h
    rw [h] at hsA
    exact hout hsA
  · intro h
    obtain ⟨_, heA, _⟩ := hend p h
    exact hout heA

/-- C7 witness: the reference ordering x, y, z with membership set of x
and z only; position 1, which holds y, is not an endpoint of the one
emitted range. -/
theorem c7_excluded_never_endpoint_witness :
    (1 < ([['x'], ['y'], ['z']] : List Str).length ∧
      ([['x'], ['y'], ['z']] : List Str).getD 1 [] ∉
        ([['x'], ['z']] : List Str).toFinset) ∧
    ∀ r ∈ zipDiffSubsetRanges {['x'], ['z']} [['x'], ['z']] [['x'], ['y'], ['z']],
      r.1 ≠ 1 ∧ r.2 ≠ some 1 :=
  ⟨⟨by decide, by decide⟩,
    c7_excluded_never_endpoint {['x'], ['z']} [['x'], ['z']] [['x'], ['y'], ['z']]
      1 (by decide) (by decide)⟩

/-- C2 counterexample: at equal decoded lengths that reach the floor,
`getHash` picks the compressed container even though the compressed
length is not below the maximum of bare length and the floor. -/
theorem c2_counterexample :
    getHash (List.replicate 75 'a') (List.replicate 75 'b') 75 = .zip ∧
    ¬((List.replicate 75 'b' : Str).length <
        max (List.replicate 75 'a' : Str).length 75) := by
  decide

/-- C2 (amended): `getHash` chooses the compressed container exactly
when the bare container's decoded length reaches both the compressed
length and the floor; equivalently, the bare container is chosen
exactly when its length is below the maximum of the compressed length
and the floor.  The comparison the claim states, on the compressed
length, is not the one the code performs. -/
theorem c2_gethash_selection (bareStr zipStr : Str) (minZip : ℕ) :
    getHash bareStr zipStr minZip = .zip ↔
      max zipStr.length minZip ≤ bareStr.length := by
  rw [getHash]
  by_cases h : bareStr.length < max zipStr.length minZip
  · rw [if_pos h]
    constructor
    · intro hc
      exact absurd hc (by decide)
    · intro hle
      omega
  · rw [if_neg h]
    constructor
    · intro _
      omega
    · intro _
      rfl

/-- C2 witness: a long bare string against a short compressed one at
floor 75 selects the compressed container. -/
theorem c2_gethash_selection_witness :
    getHash (List.replicate 80 'a') (List.replicate 10 'b') 75 = .zip :=
  (c2_gethash_selection (List.replicate 80 'a') (List.replicate 10 'b') 75).mpr
    (by decide)

/-- C3 counterexample: a compressed token far below the floor is still
selected once the bare token reaches the floor and is the longer one,
so the floor does not prevent choosing short compressed forms. -/
theorem c3_counterexample :
    (List.replicate 10 'b' : Str).length < 75 ∧
    getHash (List.replicate 80 'a') (List.replicate 10 'b') 75 = .zip := by
  decide

/-- C3 (amended): the `MIN_ZIP` floor thresholds the bare container's
decoded length, not the compressed one: whenever the bare string is
shorter than the floor, `getHash` returns the bare container. -/
theorem c3_min_zip_floor (bareStr zipStr : Str) (minZip : ℕ)
    (h : bareStr.length < minZip) : getHash bareStr zipStr minZip = .bare := by
  rw [getHash]
  exact if_pos (lt_of_lt_of_le h (le_max_right zipStr.length minZip))

/-- C3 witness: a ten-character bare string under a floor of 75 stays
bare even against a longer compressed candidate. -/
theorem c3_min_zip_floor_witness :
    (List.replicate 10 'a' : Str).length < 75 ∧
    getHash (List.replicate 10 'a') (List.replicate 99 'b') 75 = .bare :=
  ⟨by decide, c3_min_zip_floor (List.replicate 10 'a') (List.replicate 99 'b') 75 (by decide)⟩

theorem dropWhile_replicate_append (p : Char → Bool) (n : ℕ) (z : Char)
    (hz : p z = true) (l : Str) :
    List.dropWhile p (List.replicate n z ++ l) = List.dropWhile p l := by
  induction n with
  | zero => simp
  | succ k ih =>
    rw [List.replicate_succ, List.cons_append, List.dropWhile_cons, if_pos hz, ih]

theorem dropWhile_no_match (p : Char → Bool) (l : Str)
    (h : ∀ c ∈ l, p c = false) :
    List.dropWhile p l = l := by
  cases l with
  | nil => rfl
  | cons c cs =>
    rw [List.dropWhile_cons, h c (List.mem_cons_self c cs)]
    simp

/-- `zipFields` on a record whose eight fields after the first are all
empty: the join appends eight trailing separators and the strip removes
exactly those, leaving the first field alone (provided the first field
does not itself end in separator characters). -/
theorem zipFields_single (t : Str) (hfree : ZFIELDSEP ∉ t) :
    zipFields [t, [], [], [], [], [], [], [], []] = t := by
  have hjoin : joinSep ZFIELDSEP [t, ([] : Str), [], [], [], [], [], [], []] =
      t ++ List.replicate 8 ZFIELDSEP := rfl
  rw [zipFields, hjoin, List.reverse_append, List.reverse_replicate,
    dropWhile_replicate_append _ 8 ZFIELDSEP (by decide),
    dropWhile_no_match _ t.reverse
      (fun c hc => by
        simp only [decide_eq_false_iff_not]
        intro hceq
        exact hfree (hceq ▸ List.mem_reverse.mp hc)),
    List.reverse_reverse]

/-- C6: an objective whose value, unit and type equal their defaults
(value one, unit Items, type Output) and which carries no optional
settings produces a bare record equal to its target id alone — the
defaulted sub-fields become trailing empties and `zipFields` strips
them all — and parsing the shortened record back fills value, unit and
type with the known defaults. -/
theorem c6_default_objective (obj : Objective) (hfree : ZFIELDSEP ∉ obj.targetId)
    (hvalue : obj.value = 1) (hunit : obj.unit = ObjectiveUnitItems)
    (htype : obj.type = ObjectiveTypeOutput) (hmach : obj.machineId = .undefined)
    (hover : obj.overclock = .undefined) (hfuel : obj.fuelId = .undefined) :
    zipObjectiveBare obj .undefined .undefined = obj.targetId ∧
    unzipObjectiveBare obj.targetId =
      { targetId := obj.targetId, value := 1, unit := ObjectiveUnitItems,
        type := ObjectiveTypeOutput, machineId := none, modules := none,
        beacons := none, overclock := none, fuelId := none } := by
  constructor
  · rw [zipObjectiveBare, hvalue, hunit, htype, hmach, hover, hfuel]
    have h1 : zipDiffRational (.val (1 : ℚ)) (.val 1) = [] := by
      simp [zipDiffRational]
    have h2 : zipDiffNumber (.val ObjectiveUnitItems) (.val ObjectiveUnitItems) = [] := by
      simp [zipDiffNumber, Nullable.strictEq]
    have h3 : zipDiffNumber (.val ObjectiveTypeOutput) (.val ObjectiveTypeOutput) = [] := by
      simp [zipDiffNumber, Nullable.strictEq]
    rw [h1, h2, h3]
    exact zipFields_single obj.targetId hfree
  · have hs : splitOnChar ZFIELDSEP obj.targetId = [obj.targetId] :=
      splitOnChar_sepFree ZFIELDSEP obj.targetId hfree
    simp [unzipObjectiveBare, hs, fieldAt, parseRational, parseNumber,
      parseNNumber, parseString, parseStringV, parseArrayV]

/-- C6 witness: the objective targeting the four-character id with all
defaults encodes to just that id and decodes back with the defaults
restored. -/
theorem c6_default_objective_witness :
    zipObjectiveBare
        ⟨['1'], ['i', 'r', 'o', 'n'], 1, ObjectiveUnitItems, ObjectiveTypeOutput,
          .undefined, .undefined, .undefined⟩ .undefined .undefined = ['i', 'r', 'o', 'n'] ∧
    unzipObjectiveBare ['i', 'r', 'o', 'n'] =
      { targetId := ['i', 'r', 'o', 'n'], value := 1, unit := ObjectiveUnitItems,
        type := ObjectiveTypeOutput, machineId := none, modules := none,
        beacons := none, overclock := none, fuelId := none } :=
  c6_default_objective
    ⟨['1'], ['i', 'r', 'o', 'n'], 1, ObjectiveUnitItems, ObjectiveTypeOutput,
      .undefined, .undefined, .undefined⟩
    (by decide) rfl rfl rfl rfl rfl rfl

/-- C4 counterexample: on the explicit-null sentinel every scalar and
array parser returns `undefined` — indistinguishable from an absent
field — not a distinct null; only `parseSubset` produces null. -/
theorem c4_counterexample :
    parseString (.val ZNULL) none = none ∧
    parseString .undefined none = none ∧
    parseBool (.val ZNULL) = none ∧
    parseNumber (.val ZNULL) false = none ∧
    parseRational (.val ZNULL) = none ∧
    parseArrayV (.val ZNULL) = none ∧
    parseSubset (.val ZNULL) [] = some none := by
  decide

/-- C4 (amended): absent or empty input decodes to `undefined` in every
primitive parser; the `ZNULL` sentinel decodes to `undefined` in
`parseString`, `parseBool`, `parseNumber`, `parseRational` and
`parseArray`, and to null only in `parseSubset`; `ZEMPTY` decodes to
the empty collection in the collection parsers; any other input decodes
per its value type, with dictionary-bound strings decoding to the
dictionary entry at the expanded compacted index. -/
theorem c4_primitive_parsers :
    (parseString .undefined none = none ∧ parseString .null none = none ∧
      parseString (.val []) none = none ∧ parseString (.val ZNULL) none = none) ∧
    (parseBool .undefined = none ∧ parseBool (.val []) = none ∧
      parseBool (.val ZNULL) = none) ∧
    (parseNumber .undefined false = none ∧ parseNumber (.val []) false = none ∧
      parseNumber (.val ZNULL) false = none) ∧
    (parseRational .undefined = none ∧ parseRational (.val []) = none ∧
      parseRational (.val ZNULL) = none) ∧
    (parseArrayV .undefined = none ∧ parseArrayV (.val []) = none ∧
      parseArrayV (.val ZNULL) = none ∧ parseArrayV (.val ZEMPTY) = some []) ∧
    (∀ hash : List Str,
      parseSubset .undefined hash = none ∧ parseSubset (.val []) hash = none ∧
      parseSubset (.val ZNULL) hash = some none ∧
      parseSubset (.val ZEMPTY) hash = some (some ∅)) ∧
    (∀ v : Str, v ≠ [] → v ≠ ZNULL →
      parseString (.val v) none = some v ∧
      parseBool (.val v) = some (decide (v = ZTRUE)) ∧
      parseNumber (.val v) false = some (numFromStr v) ∧
      parseRational (.val v) = some (ratFromStr v) ∧
      (v ≠ ZEMPTY → parseArrayV (.val v) = some (splitOnChar ZARRAYSEP v)) ∧
      (∀ hash : List Str, parseString (.val v) (some hash) = hash.get? (idToN v))) := by
  refine ⟨by decide, by decide, by decide, by decide, by decide, ?_, ?_⟩
  · intro hash
    have h1 : (ZNULL : Str) ≠ [] := by decide
    have h2 : (ZEMPTY : Str) ≠ [] := by decide
    have h3 : (ZEMPTY : Str) ≠ ZNULL := by decide
    refine ⟨rfl, by simp [parseSubset], ?_, ?_⟩
    · simp only [parseSubset, if_neg h1]
      simp
    · simp only [parseSubset, if_neg h2, if_neg h3]
      simp
  · intro v hne hnull
    have hor : ¬(v = [] ∨ v = ZNULL) := fun h => h.elim hne hnull
    refine ⟨?_, ?_, ?_, ?_, ?_, ?_⟩
    · simp only [parseString, parseStringV, if_neg hor]
    · simp only [parseBool, if_neg hor]
    · simp only [parseNumber, Bool.false_eq_true, if_false, if_neg hor]
    · simp only [parseRational, if_neg hor]
    · intro hemp
      simp only [parseArrayV, if_neg hor, if_neg hemp]
    · intro hash
      simp only [parseString, parseNString, parseStringV, if_neg hor, Option.bind_some]
      rfl

/-- C4 witness: a plain token decodes verbatim, and a compacted token
decodes through the dictionary entry at its expanded index. -/
theorem c4_primitive_parsers_witness :
    parseString (.val ['a']) none = some ['a'] ∧
    parseString (.val ['B']) (some [['x'], ['y']]) = some ['y'] := by
  have h := c4_primitive_parsers
  constructor
  · exact (h.2.2.2.2.2.2 ['a'] (by decide) (by decide)).1
  · have hd := (h.2.2.2.2.2.2 ['B'] (by decide) (by decide)).2.2.2.2.2 [['x'], ['y']]
    rw [hd]
    decide

theorem Nullable.strictEq_self {α : Type} [DecidableEq α] (v : Nullable α) :
    v.strictEq v = true := by
  cases v <;> simp [Nullable.strictEq]

theorem natDigits10_lt : ∀ fuel n, n ≤ fuel → ∀ d ∈ natDigits10 fuel n, d < 10 := by
  intro fuel
  induction fuel with
  | zero =>
    intro n hn d hd
    interval_cases n
    simp [natDigits10] at hd
    omega
  | succ f ih =>
    intro n hn d hd
    by_cases h : n < 10
    · simp only [natDigits10, if_pos h, List.mem_singleton] at hd
      omega
    · simp only [natDigits10, if_neg h] at hd
      rcases List.mem_cons.mp hd with rfl | hd
      · omega
      · exact ih (n / 10) (by omega) d hd

theorem natDigits10_ne_nil (fuel n : ℕ) : natDigits10 fuel n ≠ [] := by
  cases fuel with
  | zero => simp [natDigits10]
  | succ f =>
    simp only [natDigits10]
    split <;> simp

theorem natToStr_ne_nil (n : ℕ) : natToStr n ≠ [] := by
  simp only [natToStr, ne_eq, List.reverse_eq_nil_iff, List.map_eq_nil_iff]
  exact natDigits10_ne_nil n n

theorem natToStr_mem_dec (n : ℕ) : ∀ c ∈ natToStr n, c ∈ decAlphabet := by
  intro c hc
  simp only [natToStr, List.mem_reverse, List.mem_map] at hc
  obtain ⟨d, hd, rfl⟩ := hc
  have hlt := natDigits10_lt n n le_rfl d hd
  have hdec : ∀ d, d < 10 → decChar d ∈ decAlphabet := by decide
  exact hdec d hlt

theorem intToStr_ne_nil (i : ℤ) : intToStr i ≠ [] := by
  rw [intToStr]
  split
  · simp
  · exact natToStr_ne_nil _

theorem intToStr_head (i : ℤ) :
    ∃ c, (intToStr i).head? = some c ∧ (c ∈ decAlphabet ∨ c = '-') := by
  rw [intToStr]
  by_cases h : i < 0
  · rw [if_pos h]
    exact ⟨'-', rfl, Or.inr rfl⟩
  · rcases hn : natToStr i.natAbs with _ | ⟨c, cs⟩
    · exact absurd hn (natToStr_ne_nil _)
    · rw [if_neg h]
      refine ⟨c, rfl, Or.inl ?_⟩
      exact natToStr_mem_dec i.natAbs c (by rw [hn]; exact List.mem_cons_self c cs)

theorem zipIndicesToken_ne_znull (l : List ℤ) : zipIndicesToken (.val l) ≠ ZNULL := by
  cases l with
  | nil => decide
  | cons a t =>
    intro h
    have htok : zipIndicesToken (.val (a :: t)) =
        joinSep ZARRAYSEP ((a :: t).map intToStr) := by
      simp [zipIndicesToken]
    have hhead : (zipIndicesToken (.val (a :: t))).head? = (intToStr a).head? := by
      rw [htok, List.map_cons]
      exact joinSep_head ZARRAYSEP (intToStr a) (t.map intToStr) (intToStr_ne_nil a)
    rw [h] at hhead
    obtain ⟨c, hc, hcd⟩ := intToStr_head a
    rw [hc] at hhead
    have : c = '?' := by
      have := hhead
      simp [ZNULL] at this
      exact this.symm
    subst this
    rcases hcd with hcd | hcd
    · exact absurd hcd (by decide)
    · exact absurd hcd (by decide)

/-- C5 counterexample: the diff-identity fails for `zipDiffSubset` on a
nonempty selection equal to its baseline (the range encoding is emitted
regardless), and for a present-but-empty array against a nonempty
baseline `zipDiffArray` produces a pair whose hashed component is the
empty string, not the `ZEMPTY` sentinel. -/
theorem c5_counterexample :
    zipDiffSubset (.val ({['a']} : Finset Str)) (.val {['a']}) [['a']] [['a']] ≠ [] ∧
    zipDiffArray (.val []) (.val [['a']]) [] = .pair ZEMPTY [] := by
  decide

/-- C5 (amended): the diff identity, explicit-null and explicit-empty
laws hold for the scalar, rational, boolean, index and array diff
codecs — the explicit-null and explicit-empty laws for the index and
array codecs provided the baseline's encoded token differs from the
sentinel, since ids that collide with reserved tokens defeat the
comparison — and for `zipDiffSubset` only in the absent and empty
cases: a nonempty selection equal to its baseline re-emits its range
encoding instead of the omission sentinel, and the pair returned by
`zipDiffArray` for a present-but-empty value carries `ZEMPTY` in its
bare component with an empty hashed component. -/
theorem c5_diff_codecs :
    (∀ (v : Nullable Str) (hash : List Str), zipDiffString v v hash = .single []) ∧
    (∀ (s : Str) (hash : List Str),
      zipDiffString .undefined (.val s) hash = .single ZNULL ∧
      zipDiffString .null (.val s) hash = .single ZNULL) ∧
    (∀ v : Nullable ℚ, zipDiffNumber v v = []) ∧
    (∀ q : ℚ, zipDiffNumber .undefined (.val q) = ZNULL ∧
      zipDiffNumber .null (.val q) = ZNULL) ∧
    (∀ v : Nullable ℚ, zipDiffRational v v = []) ∧
    (∀ q : ℚ, zipDiffRational .undefined (.val q) = ZNULL ∧
      zipDiffRational .null (.val q) = ZNULL) ∧
    (∀ b : Bool, zipDiffBool b b = []) ∧
    (∀ v : Nullable (List ℤ), zipDiffIndices v v = []) ∧
    (∀ l : List ℤ, zipDiffIndices .undefined (.val l) = ZNULL ∧
      zipDiffIndices .null (.val l) = ZNULL) ∧
    (∀ init : Nullable (List ℤ), zipIndicesToken init ≠ ZEMPTY →
      zipDiffIndices (.val []) init = ZEMPTY) ∧
    (∀ (v : Nullable (List Str)) (hash : List Str), zipDiffArray v v hash = .single []) ∧
    (∀ (init : Nullable (List Str)) (hash : List Str), zipArrayToken init ≠ ZNULL →
      zipDiffArray .undefined init hash = .single ZNULL ∧
      zipDiffArray .null init hash = .single ZNULL) ∧
    (∀ (init : Nullable (List Str)) (hash : List Str), zipArrayToken init ≠ ZEMPTY →
      zipDiffArray (.val []) init hash = .pair ZEMPTY []) ∧
    (∀ all hash : List Str,
      zipDiffSubset .undefined .undefined all hash = [] ∧
      zipDiffSubset .null .null all hash = [] ∧
      zipDiffSubset (.val (∅ : Finset Str)) (.val ∅) all hash = []) ∧
    (∀ (i : Finset Str) (all hash : List Str),
      zipDiffSubset .undefined (.val i) all hash = ZNULL ∧
      zipDiffSubset .null (.val i) all hash = ZNULL) ∧
    (∀ (init : Nullable (Finset Str)) (all hash : List Str),
      (∀ i, init = .val i → i.card ≠ 0) →
      zipDiffSubset (.val (∅ : Finset Str)) init all hash = ZEMPTY) := by
  refine ⟨?_, ?_, ?_, ?_, ?_, ?_, ?_, ?_, ?_, ?_, ?_, ?_, ?_, ?_, ?_, ?_⟩
  · intro v hash
    simp [zipDiffString, Nullable.strictEq_self]
  · intro s hash
    exact ⟨rfl, rfl⟩
  · intro v
    simp [zipDiffNumber, Nullable.strictEq_self]
  · intro q
    exact ⟨rfl, rfl⟩
  · intro v
    cases v with
    | undefined => rfl
    | null => rfl
    | val q => simp [zipDiffRational]
  · intro q
    exact ⟨rfl, rfl⟩
  · intro b
    simp [zipDiffBool]
  · intro v
    simp [zipDiffIndices]
  · intro l
    have h := zipIndicesToken_ne_znull l
    constructor
    · simp only [zipDiffIndices]
      rw [if_neg (fun hh => h hh.symm)]
      rfl
    · simp only [zipDiffIndices]
      rw [if_neg (fun hh => h hh.symm)]
      rfl
  · intro init h
    simp only [zipDiffIndices]
    rw [if_neg (fun hh => h hh.symm)]
    rfl
  · intro v hash
    simp [zipDiffArray]
  · intro init hash h
    constructor
    · simp only [zipDiffArray]
      rw [if_neg (fun hh => h hh.symm)]
    · simp only [zipDiffArray]
      rw [if_neg (fun hh => h hh.symm)]
  · intro init hash h
    simp only [zipDiffArray]
    rw [if_neg (fun hh => h hh.symm)]
    rfl
  · intro all hash
    exact ⟨rfl, rfl, rfl⟩
  · intro i all hash
    exact ⟨rfl, rfl⟩
  · intro init all hash hinit
    cases init with
    | undefined => rfl
    | null => rfl
    | val i =>
      have hc := hinit i rfl
      simp [zipDiffSubset, hc]

/-- C5 witness: the laws at concrete values — equal rationals omit the
field, an absent number against a present baseline emits the null
sentinel, and an emptied index array against a nonempty baseline emits
the empty sentinel. -/
theorem c5_diff_codecs_witness :
    zipDiffRational (.val (3 : ℚ)) (.val 3) = [] ∧
    zipDiffNumber .undefined (.val (2 : ℚ)) = ZNULL ∧
    zipDiffIndices (.val []) (.val [(1 : ℤ), 2]) = ZEMPTY := by
  have h := c5_diff_codecs
  refine ⟨h.2.2.2.2.1 (.val 3), (h.2.2.2.1 2).1, ?_⟩
  exact h.2.2.2.2.2.2.2.2.2.1 (.val [(1 : ℤ), 2]) (by decide)
